import Mathlib

set_option autoImplicit false

/-!
# Verification of the static-analysis extraction engine

Shallow embedding of `src/codebase_genius/BE/analyzer_utils.py`: the
tree-sitter node interface is abstracted as a rose tree with named fields,
and each traversal of the Python source is translated into a Lean function
with explicit accumulator state.
-/

namespace Analyzer

/-- Abstraction of a tree-sitter `Node`: a kind string (`node.type`), the
decoded source text of the node (`node.text.decode('utf8')`), the named
fields (`node.child_by_field_name`), the ordered children (`node.children`),
and the 0-based start row (`node.start_point[0]`). -/
inductive Node : Type where
  | mk (kind : String) (text : String) (fields : List (String × Node))
       (children : List Node) (row : Nat)

/-- The kind string, `node.type` in tree-sitter. -/
def Node.kind : Node → String
  | .mk k _ _ _ _ => k

/-- The decoded node text, `node.text.decode('utf8')`. -/
def Node.text : Node → String
  | .mk _ t _ _ _ => t

/-- The named fields of the node. -/
def Node.fields : Node → List (String × Node)
  | .mk _ _ f _ _ => f

/-- The child list, `node.children`. -/
def Node.children : Node → List Node
  | .mk _ _ _ c _ => c

/-- The start row, `node.start_point[0]`. -/
def Node.row : Node → Nat
  | .mk _ _ _ _ r => r

/-- Lookup among the named fields. -/
def fieldLookup : List (String × Node) → String → Option Node
  | [], _ => none
  | p :: ps, f => if p.1 = f then some p.2 else fieldLookup ps f

/-- Field access, `node.child_by_field_name(f)`. -/
def Node.childByFieldName (n : Node) (f : String) : Option Node :=
  fieldLookup n.fields f

/-- A `{"name": ..., "parent": ..., "line": ...}` record produced by
`extract_entities_minimal`. -/
structure FunctionEntity where
  name : String
  parent : Option String
  line : Nat
deriving DecidableEq, Repr

/-- A `{"name": ..., "bases": ..., "line": ...}` record produced by
`extract_entities_minimal`. -/
structure ClassEntity where
  name : String
  bases : List String
  line : Nat
deriving DecidableEq, Repr

/-- The `get_name` helper of `extract_entities_minimal`: the text of the
`name` field, or the sentinel `"unknown"` when the field is absent. -/
def getName (n : Node) : String :=
  match n.childByFieldName "name" with
  | some nameNode => nameNode.text
  | none => "unknown"

/-- The accumulated `functions` and `classes` lists of
`extract_entities_minimal`. -/
abbrev EntAcc := List FunctionEntity × List ClassEntity

/-- The base-class names extracted from the `superclasses` field of a class
definition: only direct `identifier` children count. -/
def extractBases (n : Node) : List String :=
  match n.childByFieldName "superclasses" with
  | some sc => (sc.children.filter (fun c => c.kind = "identifier")).map Node.text
  | none => []

mutual

/-- The inner `visit_node` of `extract_entities_minimal`: on a function
definition, record the entity and do not recurse; on a class definition,
record the class and recurse into its children with the class as parent;
otherwise recurse. -/
def visitEnt : Node → Option String → EntAcc → EntAcc
  | n@(.mk kind _ _ cs r), parentClass, acc =>
    if kind = "function_definition" then
      (acc.1 ++ [⟨getName n, parentClass, r + 1⟩], acc.2)
    else if kind = "class_definition" then
      visitEntList cs (some (getName n))
        (acc.1, acc.2 ++ [⟨getName n, extractBases n, r + 1⟩])
    else
      visitEntList cs parentClass acc

/-- Sequential visit of a child list, threading the accumulator. -/
def visitEntList : List Node → Option String → EntAcc → EntAcc
  | [], _, acc => acc
  | c :: cs, parentClass, acc => visitEntList cs parentClass (visitEnt c parentClass acc)

end

/-- Helper for `os.path.basename`, restricted to `/`-separated paths: the suffix after
the last separator. -/
def basenameAux : List Char → List Char → List Char
  | [], cur => cur.reverse
  | c :: t, cur => if c = '/' then basenameAux t [] else basenameAux t (c :: cur)

/-- The embedding of `os.path.basename(p)`. -/
def basename (p : String) : String :=
  String.mk (basenameAux p.data [])

/-- The per-file record returned by `extract_entities_minimal`
(`{"file": ..., "functions": ..., "classes": ...}`). -/
structure FileData where
  file : String
  functions : List FunctionEntity
  classes : List ClassEntity
deriving DecidableEq, Repr

/-- The embedding of `extract_entities_minimal(tree, source, file_path, original_path)`.
The tree is represented by its root node; `source_code` is unused by the
Python body and omitted. `display_path` falls back to `file_path` when
`original_path` is `None` or empty (Python truthiness). -/
def extract_entities_minimal (root : Node) (filePath : String)
    (originalPath : Option String) : FileData :=
  let acc := visitEnt root none ([], [])
  let displayPath :=
    match originalPath with
    | some s => if s = "" then filePath else s
    | none => filePath
  ⟨basename displayPath, acc.1, acc.2⟩

/-! ## Call-relationship extraction (`extract_call_relationships`) -/

/-- The `BUILTIN_FUNCTIONS` exclusion set. -/
def BUILTIN_FUNCTIONS : List String :=
  ["print", "len", "str", "int", "float", "bool", "dict", "list", "set",
   "tuple", "open", "range", "enumerate", "zip", "map", "filter", "sum",
   "max", "min", "abs", "isinstance", "hasattr", "getattr", "setattr",
   "type", "id", "iter", "next", "sorted", "reversed", "any", "all",
   "get", "items", "keys", "values", "append", "extend", "pop", "remove",
   "join", "split", "strip", "replace", "format", "startswith", "endswith",
   "exists", "isdir", "isfile", "makedirs", "listdir", "walk",
   "load", "dump", "loads", "dumps", "read", "write", "readline"]

/-- The `JAC_KEYWORDS` exclusion set. -/
def JAC_KEYWORDS : List String :=
  ["visit", "spawn", "disengage", "report", "here", "root", "edge_in",
   "edge_out", "refs", "filter_on", "OPath", "jid"]

/-- The `calls` map: a `defaultdict(list)` keyed by function name, embedded
as an insertion-ordered association list. -/
abbrev CallGraph := List (String × List String)

/-- First-entry lookup in an association list (`m[k]` when `k` is present). -/
def assocFind {α : Type} : List (String × α) → String → Option α
  | [], _ => none
  | p :: m, k => if p.1 = k then some p.2 else assocFind m k

/-- Python `dict` assignment `m[k] = v`: replace the value of an existing
key in place, else append the new key at the end. -/
def assocSet {α : Type} : List (String × α) → String → α → List (String × α)
  | [], k, v => [(k, v)]
  | p :: m, k, v => if p.1 = k then (k, v) :: m else p :: assocSet m k v

/-- The key list of an association list, in insertion order. -/
def assocKeys {α : Type} (m : List (String × α)) : List String :=
  m.map (·.1)

/-- The bare `calls[k]` access on a `defaultdict(list)`: create an empty
entry when the key is absent. -/
def cgInit : CallGraph → String → CallGraph
  | [], k => [(k, [])]
  | p :: m, k => if p.1 = k then p :: m else p :: cgInit m k

/-- The update `if v not in calls[k]: calls[k].append(v)` on a `defaultdict(list)`. -/
def cgAddCall : CallGraph → String → String → CallGraph
  | [], k, v => [(k, [v])]
  | p :: m, k, v =>
    if p.1 = k then (p.1, if v ∈ p.2 then p.2 else p.2 ++ [v]) :: m
    else p :: cgAddCall m k v

/-- Resolution of the callee name from the `function` child of a `call`
node: a bare `identifier` yields its own text, an `attribute` yields the
text of its final `attribute` field (the receiver is ignored), anything
else yields nothing. -/
def resolveCallee (funcNode : Node) : Option String :=
  if funcNode.kind = "identifier" then some funcNode.text
  else if funcNode.kind = "attribute" then
    (funcNode.childByFieldName "attribute").map Node.text
  else none

/-- The body of the `call` branch of `extract_call_relationships`: record
the resolved callee (when truthy and not excluded) against the current
function. -/
def recordCall (n : Node) (currentFunc : String) (calls : CallGraph) : CallGraph :=
  match n.childByFieldName "function" with
  | some funcNode =>
    match resolveCallee funcNode with
    | some called =>
      if called ≠ "" ∧ called ∉ BUILTIN_FUNCTIONS ∧ called ∉ JAC_KEYWORDS then
        cgAddCall calls currentFunc called
      else calls
    | none => calls
  | none => calls

/-- The `elif node.type == 'call' and current_func:` branch applied to the
running call map: record the callee when the node is a call expression and
the current function is truthy, else leave the map unchanged. -/
def callStep (n : Node) (currentFunc : Option String) (calls : CallGraph) : CallGraph :=
  if n.kind = "call" then
    match currentFunc with
    | some cf => if cf = "" then calls else recordCall n cf calls
    | none => calls
  else calls

mutual

/-- The inner `visit_node` of `extract_call_relationships`: a named
function definition initializes its (possibly empty) call list and is the
current function for its whole subtree; a nameless definition is skipped
entirely (no recursion); a `call` node inside a function records its
callee and still recurses; everything else recurses. `current_func` is
checked for Python truthiness (non-`None` and non-empty). -/
def visitCall : Node → Option String → CallGraph → CallGraph
  | n@(.mk kind _ _ cs _), currentFunc, calls =>
    if kind = "function_definition" then
      match (n.childByFieldName "name").map Node.text with
      | some funcName =>
        if funcName = "" then calls
        else visitCallList cs (some funcName) (cgInit calls funcName)
      | none => calls
    else
      visitCallList cs currentFunc (callStep n currentFunc calls)

/-- Sequential visit of a child list, threading the call map. -/
def visitCallList : List Node → Option String → CallGraph → CallGraph
  | [], _, calls => calls
  | c :: cs, currentFunc, calls => visitCallList cs currentFunc (visitCall c currentFunc calls)

end

/-- The embedding of `extract_call_relationships(tree, source_code)`; the tree is
represented by its root node, `source_code` is unused by the Python body. -/
def extract_call_relationships (root : Node) : CallGraph :=
  visitCall root none []

/-! ### Specification-level companion: the raw call stream

`rawVisitCall` is `visitCall` with the deduplication removed: every
resolved, non-excluded callee is appended unconditionally.  Relating the
two makes "duplicate-free in order of first occurrence" precise. -/

/-- Variant of `cgAddCall` without the membership test: append unconditionally. -/
def cgAddCallRaw : CallGraph → String → String → CallGraph
  | [], k, v => [(k, [v])]
  | p :: m, k, v =>
    if p.1 = k then (p.1, p.2 ++ [v]) :: m
    else p :: cgAddCallRaw m k v

/-- Variant of `recordCall` with unconditional append. -/
def recordCallRaw (n : Node) (currentFunc : String) (calls : CallGraph) : CallGraph :=
  match n.childByFieldName "function" with
  | some funcNode =>
    match resolveCallee funcNode with
    | some called =>
      if called ≠ "" ∧ called ∉ BUILTIN_FUNCTIONS ∧ called ∉ JAC_KEYWORDS then
        cgAddCallRaw calls currentFunc called
      else calls
    | none => calls
  | none => calls

/-- Variant of `callStep` with unconditional appends. -/
def callStepRaw (n : Node) (currentFunc : Option String) (calls : CallGraph) : CallGraph :=
  if n.kind = "call" then
    match currentFunc with
    | some cf => if cf = "" then calls else recordCallRaw n cf calls
    | none => calls
  else calls

mutual

/-- Variant of `visitCall` with unconditional appends: collects, per function, the
full ordered stream of resolved non-excluded callee names. -/
def rawVisitCall : Node → Option String → CallGraph → CallGraph
  | n@(.mk kind _ _ cs _), currentFunc, calls =>
    if kind = "function_definition" then
      match (n.childByFieldName "name").map Node.text with
      | some funcName =>
        if funcName = "" then calls
        else rawVisitCallList cs (some funcName) (cgInit calls funcName)
      | none => calls
    else
      rawVisitCallList cs currentFunc (callStepRaw n currentFunc calls)

/-- Sequential raw visit of a child list. -/
def rawVisitCallList : List Node → Option String → CallGraph → CallGraph
  | [], _, calls => calls
  | c :: cs, currentFunc, calls => rawVisitCallList cs currentFunc (rawVisitCall c currentFunc calls)

end

/-- The per-function raw call stream of a tree. -/
def raw_call_relationships (root : Node) : CallGraph :=
  rawVisitCall root none []

/-- Keep the first occurrence of every element not already in `seen`,
dropping later duplicates. -/
def firstOccurAux : List String → List String → List String
  | [], _ => []
  | a :: l, seen =>
    if a ∈ seen then firstOccurAux l seen else a :: firstOccurAux l (a :: seen)

/-- Keep the first occurrence of every element of a list, dropping later
duplicates: the natural statement of "duplicate-free, in order of first
occurrence". -/
def firstOccur (l : List String) : List String :=
  firstOccurAux l []

/-- Map `firstOccur` over every value of a call graph. -/
def mapFO (m : CallGraph) : CallGraph :=
  m.map (fun p => (p.1, firstOccur p.2))

/-- The exclusion invariant: no value list of the call map contains a name
from either exclusion set. -/
def ExclInv (m : CallGraph) : Prop :=
  ∀ p ∈ m, ∀ x ∈ p.2, x ∉ BUILTIN_FUNCTIONS ∧ x ∉ JAC_KEYWORDS

/-! ## Dependency-tree call edges (`build_dependency_tree`)

Only the `dot.edge` calls for call relationships are modelled; node and
containment-edge rendering is an external side effect with no influence on
which call edges are emitted beyond the `all_functions` registry built
alongside it. -/

/-- The graphviz node identifier `f"{filename}_{name}"`. -/
def nodeId (filename name : String) : String :=
  filename ++ "_" ++ name

/-- Python truthiness of an optional string (`None` and `""` are falsy). -/
def pyTruthy : Option String → Bool
  | none => false
  | some s => s ≠ ""

/-- The `all_functions` registry of `build_dependency_tree`: per file,
methods whose `parent` equals some class of the file (in class order), then
functions with a falsy `parent`; assignment is Python `dict` assignment. -/
def allFunctions (fileData : List FileData) : List (String × String) :=
  fileData.foldl
    (fun af fi =>
      let afMethods :=
        fi.classes.foldl
          (fun af cls =>
            fi.functions.foldl
              (fun af fn =>
                if fn.parent = some cls.name then
                  assocSet af fn.name (nodeId fi.file fn.name)
                else af)
              af)
          af
      fi.functions.foldl
        (fun af fn =>
          if pyTruthy fn.parent then af
          else assocSet af fn.name (nodeId fi.file fn.name))
        afMethods)
    []

/-- The call edges emitted by `build_dependency_tree`: for every
`(caller, callees)` pair of the call graph, an edge
`all_functions[caller] -> all_functions[callee]` for each callee, but only
when both caller and callee are registered defined functions. -/
def depTreeCallEdges (fileData : List FileData) (callGraph : CallGraph) :
    List (String × String) :=
  callGraph.foldl
    (fun acc p =>
      match assocFind (allFunctions fileData) p.1 with
      | some callerNode =>
        acc ++ p.2.filterMap (fun callee =>
          (assocFind (allFunctions fileData) callee).map
            (fun calleeNode => (callerNode, calleeNode)))
      | none => acc)
    []

/-! ## Class-hierarchy edges (`build_class_hierarchy`) -/

/-- The `all_classes` registry: every class of every file keyed by name,
with Python `dict` assignment (a later class with the same name replaces
the earlier one). -/
def allClasses (fileData : List FileData) : List (String × ClassEntity) :=
  fileData.foldl
    (fun ac fi => fi.classes.foldl (fun ac cls => assocSet ac cls.name cls) ac)
    []

/-- The inheritance edges emitted by `build_class_hierarchy`: for every
registered class and every base name, an edge `cls -> base` exactly when
the base is itself a registered class name. -/
def classHierEdges (fileData : List FileData) : List (String × String) :=
  (allClasses fileData).foldl
    (fun acc p =>
      acc ++ p.2.bases.filterMap (fun base =>
        if (assocFind (allClasses fileData) base).isSome then some (p.1, base) else none))
    []

/-- All classes appearing in the extracted per-file data (before the
registry deduplicates them by name). -/
def analyzedClasses (fileData : List FileData) : List ClassEntity :=
  (fileData.map (·.classes)).flatten

/-! ## Main analysis (`run_analysis`)

File-system effects are abstracted: the cache is the deserialized contents
of `cache_path` (`none` when the file does not exist), parser construction
is a boolean outcome, and `os.walk` is a pre-computed list of candidate
files.  Reading, Jac conversion and parsing of one file collapse into an
optional parse tree, `none` meaning the file is skipped by the
conversion-failure `continue` or the per-file `except` handler. -/

/-- One candidate file of the directory walk: the directory it sits in
(`root` of `os.walk`), its filename, and the outcome of
convert-read-parse. -/
structure SrcFile where
  dir : String
  filename : String
  tree : Option Node

/-- Substring test on character lists. -/
def listHasInfix (pat : List Char) : List Char → Bool
  | [] => pat.isEmpty
  | c :: t => pat.isPrefixOf (c :: t) || listHasInfix pat t

/-- Python `pat in hay` on strings. -/
def strContains (hay pat : String) : Bool :=
  listHasInfix pat.data hay.data

/-- Python `s.endswith(suf)`. -/
def strEndsWith (s suf : String) : Bool :=
  suf.data.isSuffixOf s.data

/-- The directory fragments whose presence in the walk root skips the
directory. -/
def skipDirs : List String :=
  [".git", "__pycache__", "venv", "node_modules"]

/-- A walk entry survives the loop filters: not in a skipped directory,
with a `.py` or `.jac` extension, and not a `_converted.py` artifact. -/
def eligibleFile (f : SrcFile) : Bool :=
  !(skipDirs.any (fun s => strContains f.dir s)) &&
  (strEndsWith f.filename ".py" || strEndsWith f.filename ".jac") &&
  !(strContains f.filename "_converted.py")

/-- Path join, `os.path.join(root, filename)`, for the paths produced by the walk. -/
def joinPath (dir filename : String) : String :=
  dir ++ "/" ++ filename

/-- The aggregated analysis result (the `result` dict of `run_analysis`);
the two graph-image paths are constants and omitted. -/
structure AnalysisResult where
  repoPath : String
  files : List FileData
  callGraph : CallGraph
  totalFiles : Nat
  totalClasses : Nat
  totalFunctions : Nat
  totalCalls : Nat
deriving DecidableEq, Repr

/-- The outcome of `run_analysis`: an aggregated result, or the top-level
`{"error": ...}` dict on parser-construction failure. -/
inductive RunResult where
  | ok (r : AnalysisResult)
  | error (msg : String)
deriving DecidableEq, Repr

/-- Side effects of a `run_analysis` call that the claims talk about:
whether the directory walk ran, how many files were successfully parsed,
and whether the cache file was written. -/
structure Effects where
  walked : Bool
  parsedCount : Nat
  cacheWritten : Bool
deriving DecidableEq, Repr

/-- The loop body of `run_analysis` for one walk entry: apply the filters,
skip on conversion/read/parse failure, extract entities (appending the
record only when it has functions or classes) and merge the file's call
graph by `dict.update`. -/
def processFile (st : List FileData × CallGraph × Nat) (f : SrcFile) :
    List FileData × CallGraph × Nat :=
  if eligibleFile f then
    match f.tree with
    | some t =>
      let entities := extract_entities_minimal t (joinPath f.dir f.filename)
        (some (joinPath f.dir f.filename))
      let fileData :=
        if entities.functions ≠ [] ∨ entities.classes ≠ [] then st.1 ++ [entities]
        else st.1
      let calls := extract_call_relationships t
      (fileData, calls.foldl (fun acc p => assocSet acc p.1 p.2) st.2.1, st.2.2 + 1)
    | none => st
  else st

/-- The embedding of `run_analysis(repo_path, cache_path)`.  The `cache` argument is the deserialized
prior result when a file exists at `cache_path`; `parserOk` is the outcome
of `init_parser`; `walk` is the flattened `os.walk` enumeration. -/
def run_analysis (repoPath : String) (cache : Option AnalysisResult)
    (parserOk : Bool) (walk : List SrcFile) : RunResult × Effects :=
  match cache with
  | some r => (.ok r, ⟨false, 0, false⟩)
  | none =>
    if parserOk then
      let st := walk.foldl processFile ([], [], 0)
      let fileData := st.1
      let allCalls := st.2.1
      (.ok ⟨repoPath, fileData, allCalls,
            fileData.length,
            (fileData.map (fun f => f.classes.length)).sum,
            (fileData.map (fun f => f.functions.length)).sum,
            (allCalls.map (fun p => p.2.length)).sum⟩,
       ⟨true, st.2.2, true⟩)
    else (.error "Parser initialization failed", ⟨false, 0, false⟩)

/-! ## Query helpers -/

/-- The embedding of `get_callers(function_name, call_graph)`. -/
def get_callers (functionName : String) (callGraph : CallGraph) : List String :=
  (callGraph.filter (fun p => functionName ∈ p.2)).map (·.1)

/-- The embedding of `get_callees(function_name, call_graph)`. -/
def get_callees (functionName : String) (callGraph : CallGraph) : List String :=
  (assocFind callGraph functionName).getD []

/-- The embedding of `get_file_entities(filename, file_data)`. -/
def get_file_entities (filename : String) (fileData : List FileData) : FileData :=
  match fileData.find? (fun fi => strContains fi.file filename) with
  | some fi => fi
  | none => ⟨"", [], []⟩

/-! ## Names of function-definition nodes

`funcDefNames` collects the (truthy) names of every `function_definition`
node of a tree, nested ones included; it bounds the key set of
`extract_call_relationships`. -/

mutual

/-- The truthy names of all function-definition nodes of a tree. -/
def funcDefNames : Node → List String
  | n@(.mk kind _ _ cs _) =>
    (if kind = "function_definition" then
      match (n.childByFieldName "name").map Node.text with
      | some s => if s = "" then [] else [s]
      | none => []
    else []) ++ funcDefNamesList cs

/-- Concatenation of `funcDefNames` over a child list. -/
def funcDefNamesList : List Node → List String
  | [] => []
  | c :: cs => funcDefNames c ++ funcDefNamesList cs

end

/-- The value `fileRecord f` is the file record that one walk entry contributes to
`run_analysis`'s `files` list: present exactly when the entry passes the
loop filters, parses, and extracts at least one function or class. -/
def fileRecord (f : SrcFile) : Option FileData :=
  if eligibleFile f then
    match f.tree with
    | some t =>
      let e := extract_entities_minimal t (joinPath f.dir f.filename)
        (some (joinPath f.dir f.filename))
      if e.functions ≠ [] ∨ e.classes ≠ [] then some e else none
    | none => none
  else none

/-! ## Concrete example inputs -/

/-- An identifier node with the given text. -/
def ident (s : String) (r : Nat) : Node :=
  .mk "identifier" s [] [] r

/-- A call-expression node `f(...)` with a bare identifier callee. -/
def callNode (f : String) (r : Nat) : Node :=
  .mk "call" "" [("function", ident f r)] [] r

/-- A function-definition node with the given name and body children. -/
def defNode (name : String) (body : List Node) (r : Nat) : Node :=
  .mk "function_definition" "" [("name", ident name r)] body r

/-- A module root with the given children. -/
def moduleNode (cs : List Node) : Node :=
  .mk "module" "" [] cs 0

/-- Example `def outer(): def inner(): pass` — a nested function definition with
no calls. -/
def exTreeNested : Node :=
  moduleNode [defNode "outer" [defNode "inner" [] 1] 0]

/-- Example `def outer(): def inner(): g()` — a call inside a nested function
definition. -/
def exTreeNestedCall : Node :=
  moduleNode [defNode "outer" [defNode "inner" [callNode "g" 2] 1] 0]

/-- A name-less function-definition node (grammar anomaly). -/
def exTreeNameless : Node :=
  moduleNode [.mk "function_definition" "" [] [] 0]

/-- Example `def f(): g(); obj.h(); g(); print()` — duplicate, attribute and
excluded calls. -/
def exTreeCalls : Node :=
  moduleNode
    [defNode "f"
      [callNode "g" 1,
       .mk "call" ""
         [("function",
           .mk "attribute" "obj.h"
             [("object", ident "obj" 2), ("attribute", ident "h" 2)] [] 2)]
         [] 2,
       callNode "g" 3,
       callNode "print" 4]
      0]

/-- A source tree with no definitions at all. -/
def exTreeEmpty : Node :=
  moduleNode []

/-- Example `def f(): pass` alone. -/
def exTreeSingle : Node :=
  moduleNode [defNode "f" [] 0]

/-- Example `def f(): a()` — file-A variant for the duplicate-name scenario. -/
def exTreeDupA : Node :=
  moduleNode [defNode "f" [callNode "a" 1] 0]

/-- Example `def f(): b()` — file-B variant for the duplicate-name scenario. -/
def exTreeDupB : Node :=
  moduleNode [defNode "f" [callNode "b" 1] 0]

/-- A walk entry around `exTreeEmpty`. -/
def exFileEmpty : SrcFile :=
  ⟨"repo", "empty.py", some exTreeEmpty⟩

/-- A walk entry around `exTreeSingle`. -/
def exFileSingle : SrcFile :=
  ⟨"repo", "single.py", some exTreeSingle⟩

/-- A walk entry whose read/parse fails. -/
def exFileBad : SrcFile :=
  ⟨"repo", "bad.py", none⟩

/-- Walk entry for `exTreeDupA`. -/
def exFileDupA : SrcFile :=
  ⟨"repo", "a.py", some exTreeDupA⟩

/-- Walk entry for `exTreeDupB`. -/
def exFileDupB : SrcFile :=
  ⟨"repo", "b.py", some exTreeDupB⟩

/-- A file whose class `A(B)` is shadowed by a later class also named `A`
with no bases; `B` is itself analyzed. -/
def exFileShadow : FileData :=
  ⟨"c.py", [], [⟨"A", ["B"], 1⟩, ⟨"B", [], 2⟩, ⟨"A", [], 3⟩]⟩

/-- Two files with classes `C(B)` and `B`. -/
def exFileHier : List FileData :=
  [⟨"c.py", [], [⟨"C", ["B"], 1⟩]⟩, ⟨"d.py", [], [⟨"B", [], 1⟩]⟩]

/-- File data and call graph for the dependency-tree example: `f` calls
the defined `g` and the undefined `x`. -/
def exFileDep : List FileData :=
  [⟨"e.py", [⟨"f", none, 1⟩, ⟨"g", none, 2⟩], []⟩]

/-- Call graph for the dependency-tree example. -/
def exCallGraphDep : CallGraph :=
  [("f", ["x", "g"]), ("g", [])]

end Analyzer

namespace Analyzer

/-! ## Infrastructure lemmas -/

theorem sizeOf_lt_of_mem_children {c n : Node} (h : c ∈ n.children) :
    sizeOf c < sizeOf n := by
  cases n with
  | mk kind text fields children row =>
    have h1 : sizeOf c < sizeOf children := List.sizeOf_lt_of_mem h
    simp only [Node.mk.sizeOf_spec]
    omega

/-- Strong induction over `Node` via children membership. -/
theorem node_ind (P : Node → Prop)
    (step : ∀ n : Node, (∀ c ∈ n.children, P c) → P n) : ∀ n, P n := by
  have aux : ∀ (k : Nat) (n : Node), sizeOf n ≤ k → P n := by
    intro k
    induction k with
    | zero =>
      intro n hn
      cases n with
      | mk kind text fields children row =>
        simp only [Node.mk.sizeOf_spec] at hn
        omega
    | succ k ih =>
      intro n hn
      refine step n (fun c hc => ih c ?_)
      have := sizeOf_lt_of_mem_children hc
      omega
  exact fun n => aux (sizeOf n) n (Nat.le_refl _)

theorem assocFind_set_self {α : Type} (m : List (String × α)) (k : String) (v : α) :
    assocFind (assocSet m k v) k = some v := by
  induction m with
  | nil => simp [assocFind, assocSet]
  | cons p m ih =>
    by_cases h : p.1 = k
    · simp [assocFind, assocSet, h]
    · simp [assocFind, assocSet, h, ih]

theorem assocFind_set_ne {α : Type} (m : List (String × α)) (k k' : String) (v : α)
    (h : k' ≠ k) : assocFind (assocSet m k v) k' = assocFind m k' := by
  induction m with
  | nil => simp [assocFind, assocSet, fun hh => h hh.symm ∘ Eq.symm, Ne.symm h]
  | cons p m ih =>
    by_cases hp : p.1 = k
    · simp [assocFind, assocSet, hp, Ne.symm h]
    · simp only [assocSet, hp, if_false]
      by_cases hp' : p.1 = k'
      · simp [assocFind, hp']
      · simp [assocFind, hp', ih]

theorem assocFind_mem {α : Type} (m : List (String × α)) (k : String) (v : α)
    (h : assocFind m k = some v) : (k, v) ∈ m := by
  induction m with
  | nil => simp [assocFind] at h
  | cons p m ih =>
    by_cases hp : p.1 = k
    · simp only [assocFind, hp, if_true, Option.some.injEq] at h
      subst h
      rw [← hp]
      exact List.mem_cons_self _ _
    · simp only [assocFind, hp, if_false] at h
      exact List.mem_cons_of_mem _ (ih h)

theorem assocFind_isSome_iff_mem_keys {α : Type} (m : List (String × α)) (k : String) :
    (assocFind m k).isSome = true ↔ k ∈ assocKeys m := by
  induction m with
  | nil => simp [assocFind, assocKeys]
  | cons p m ih =>
    by_cases hp : p.1 = k
    · simp [assocFind, assocKeys, hp]
    · simp [assocFind, assocKeys, hp, ih, Ne.symm hp]

theorem assocKeys_set {α : Type} (m : List (String × α)) (k : String) (v : α) :
    assocKeys (assocSet m k v) =
      if k ∈ assocKeys m then assocKeys m else assocKeys m ++ [k] := by
  induction m with
  | nil => simp [assocSet, assocKeys]
  | cons p m ih =>
    by_cases hp : p.1 = k
    · simp [assocSet, assocKeys, hp]
    · simp only [assocSet, hp, if_false, assocKeys, List.map_cons, List.mem_cons]
      rw [assocKeys] at ih
      rw [ih]
      by_cases hk : k ∈ m.map (·.1)
      · simp [assocKeys, hk, Ne.symm hp]
      · simp [assocKeys, hk, Ne.symm hp]

theorem cgInit_find_self (m : CallGraph) (k : String) :
    ∃ l, assocFind (cgInit m k) k = some l := by
  induction m with
  | nil => exact ⟨[], by simp [cgInit, assocFind]⟩
  | cons p m ih =>
    by_cases hp : p.1 = k
    · exact ⟨p.2, by simp [cgInit, assocFind, hp]⟩
    · obtain ⟨l, hl⟩ := ih
      exact ⟨l, by simp [cgInit, assocFind, hp, hl]⟩

theorem assocKeys_cgInit (m : CallGraph) (k : String) :
    assocKeys (cgInit m k) =
      if k ∈ assocKeys m then assocKeys m else assocKeys m ++ [k] := by
  induction m with
  | nil => simp [cgInit, assocKeys]
  | cons p m ih =>
    by_cases hp : p.1 = k
    · simp [cgInit, assocKeys, hp]
    · simp only [cgInit, hp, if_false, assocKeys, List.map_cons, List.mem_cons]
      rw [assocKeys] at ih
      rw [ih]
      by_cases hk : k ∈ m.map (·.1)
      · simp [assocKeys, hk, Ne.symm hp]
      · simp [assocKeys, hk, Ne.symm hp]

theorem assocKeys_cgAddCall (m : CallGraph) (k v : String) :
    assocKeys (cgAddCall m k v) = assocKeys (cgInit m k) := by
  induction m with
  | nil => simp [cgAddCall, cgInit, assocKeys]
  | cons p m ih =>
    by_cases hp : p.1 = k
    · simp [cgAddCall, cgInit, assocKeys, hp]
    · simp only [cgAddCall, cgInit, hp, if_false, assocKeys, List.map_cons]
      rw [assocKeys, assocKeys] at ih
      rw [ih]

theorem nodup_append_singleton {l : List String} {k : String}
    (hk : k ∉ l) (hl : l.Nodup) : (l ++ [k]).Nodup := by
  simp [List.nodup_append, hk, hl]

theorem mem_keys_cgInit {m : CallGraph} {j k : String} (h : k ∈ assocKeys m) :
    k ∈ assocKeys (cgInit m j) := by
  rw [assocKeys_cgInit]
  by_cases hj : j ∈ assocKeys m <;> simp [hj, h]

theorem self_mem_keys_cgInit (m : CallGraph) (j : String) :
    j ∈ assocKeys (cgInit m j) := by
  rw [assocKeys_cgInit]
  by_cases hj : j ∈ assocKeys m <;> simp [hj]

theorem mem_keys_cgInit_cases {m : CallGraph} {j k : String}
    (h : k ∈ assocKeys (cgInit m j)) : k ∈ assocKeys m ∨ k = j := by
  rw [assocKeys_cgInit] at h
  by_cases hj : j ∈ assocKeys m
  · simp only [hj, if_true] at h
    exact Or.inl h
  · simp only [hj, if_false, List.mem_append, List.mem_singleton] at h
    exact h

/-! ### Unfolding lemmas for `visitCall` -/

theorem visitCall_eq_fndef_named {n nn : Node} (cf : Option String) (m : CallGraph)
    (hk : n.kind = "function_definition") (hn : n.childByFieldName "name" = some nn)
    (ht : nn.text ≠ "") :
    visitCall n cf m = visitCallList n.children (some nn.text) (cgInit m nn.text) := by
  cases n with
  | mk kind tx fs cs r =>
    simp only [Node.kind] at hk
    subst hk
    simp [visitCall, hn, ht, Node.children]

theorem visitCall_eq_fndef_empty {n nn : Node} (cf : Option String) (m : CallGraph)
    (hk : n.kind = "function_definition") (hn : n.childByFieldName "name" = some nn)
    (ht : nn.text = "") : visitCall n cf m = m := by
  cases n with
  | mk kind tx fs cs r =>
    simp only [Node.kind] at hk
    subst hk
    simp [visitCall, hn, ht]

theorem visitCall_eq_fndef_noname {n : Node} (cf : Option String) (m : CallGraph)
    (hk : n.kind = "function_definition") (hn : n.childByFieldName "name" = none) :
    visitCall n cf m = m := by
  cases n with
  | mk kind tx fs cs r =>
    simp only [Node.kind] at hk
    subst hk
    simp [visitCall, hn]

theorem visitCall_eq_other {n : Node} (cf : Option String) (m : CallGraph)
    (hk : n.kind ≠ "function_definition") :
    visitCall n cf m = visitCallList n.children cf (callStep n cf m) := by
  cases n with
  | mk kind tx fs cs r =>
    simp only [Node.kind] at hk
    simp [visitCall, hk, Node.children]

theorem visitCallList_nil (cf : Option String) (m : CallGraph) :
    visitCallList [] cf m = m := rfl

theorem visitCallList_cons (c : Node) (cs : List Node) (cf : Option String) (m : CallGraph) :
    visitCallList (c :: cs) cf m = visitCallList cs cf (visitCall c cf m) := rfl

/-! ### Key-set lemmas for `visitCall` -/

theorem mem_keys_recordCall {n : Node} {cf : String} {m : CallGraph} {k : String}
    (h : k ∈ assocKeys m) : k ∈ assocKeys (recordCall n cf m) := by
  unfold recordCall
  split
  · split
    · split
      · rw [assocKeys_cgAddCall]
        exact mem_keys_cgInit h
      · exact h
    · exact h
  · exact h

theorem mem_keys_recordCall_cases {n : Node} {cf : String} {m : CallGraph} {k : String}
    (h : k ∈ assocKeys (recordCall n cf m)) : k ∈ assocKeys m ∨ k = cf := by
  unfold recordCall at h
  split at h
  · split at h
    · split at h
      · rw [assocKeys_cgAddCall] at h
        exact mem_keys_cgInit_cases h
      · exact Or.inl h
    · exact Or.inl h
  · exact Or.inl h

theorem mem_keys_callStep {n : Node} {cf : Option String} {m : CallGraph} {k : String}
    (h : k ∈ assocKeys m) : k ∈ assocKeys (callStep n cf m) := by
  unfold callStep
  split
  · split
    · split
      · exact h
      · exact mem_keys_recordCall h
    · exact h
  · exact h

theorem mem_keys_callStep_cases {n : Node} {cf : Option String} {m : CallGraph} {k : String}
    (h : k ∈ assocKeys (callStep n cf m)) : k ∈ assocKeys m ∨ cf = some k := by
  unfold callStep at h
  split at h
  · split at h
    · split at h
      · exact Or.inl h
      · rcases mem_keys_recordCall_cases h with h1 | h1
        · exact Or.inl h1
        · subst h1
          exact Or.inr rfl
    · exact Or.inl h
  · exact Or.inl h

theorem visitCallList_keys_subset_of (cs : List Node)
    (ih : ∀ c ∈ cs, ∀ cf m k, k ∈ assocKeys m → k ∈ assocKeys (visitCall c cf m)) :
    ∀ cf m k, k ∈ assocKeys m → k ∈ assocKeys (visitCallList cs cf m) := by
  induction cs with
  | nil => intro cf m k h; simpa [visitCallList] using h
  | cons c cs ihl =>
    intro cf m k h
    rw [visitCallList_cons]
    exact ihl (fun c' hc' => ih c' (List.mem_cons_of_mem _ hc')) cf _ k
      (ih c (List.mem_cons_self _ _) cf m k h)

theorem visitCall_keys_subset :
    ∀ n : Node, ∀ cf m k, k ∈ assocKeys m → k ∈ assocKeys (visitCall n cf m) := by
  refine node_ind _ ?_
  intro n ih cf m k hk
  by_cases hfd : n.kind = "function_definition"
  · cases hn : n.childByFieldName "name" with
    | none => rw [visitCall_eq_fndef_noname cf m hfd hn]; exact hk
    | some nn =>
      by_cases ht : nn.text = ""
      · rw [visitCall_eq_fndef_empty cf m hfd hn ht]
        exact hk
      · rw [visitCall_eq_fndef_named cf m hfd hn ht]
        exact visitCallList_keys_subset_of n.children ih _ _ k (mem_keys_cgInit hk)
  · rw [visitCall_eq_other cf m hfd]
    exact visitCallList_keys_subset_of n.children ih _ _ k (mem_keys_callStep hk)

theorem funcDefNames_eq (n : Node) :
    funcDefNames n =
      (if n.kind = "function_definition" then
        match (n.childByFieldName "name").map Node.text with
        | some s => if s = "" then [] else [s]
        | none => []
      else []) ++ funcDefNamesList n.children := by
  cases n with
  | mk kind tx fs cs r => simp [funcDefNames, Node.kind, Node.children]

theorem funcDefNamesList_sub {c : Node} {cs : List Node} (hc : c ∈ cs) {k : String}
    (h : k ∈ funcDefNames c) : k ∈ funcDefNamesList cs := by
  induction cs with
  | nil => cases hc
  | cons c' cs ih =>
    rcases List.mem_cons.mp hc with h1 | h1
    · subst h1
      simp [funcDefNamesList, h]
    · simp [funcDefNamesList, ih h1]

theorem visitCallList_keys_bound_of (cs : List Node)
    (ih : ∀ c ∈ cs, ∀ cf m k, k ∈ assocKeys (visitCall c cf m) →
      k ∈ assocKeys m ∨ k ∈ funcDefNames c ∨ cf = some k) :
    ∀ cf m k, k ∈ assocKeys (visitCallList cs cf m) →
      k ∈ assocKeys m ∨ k ∈ funcDefNamesList cs ∨ cf = some k := by
  induction cs with
  | nil =>
    intro cf m k h
    exact Or.inl (by simpa [visitCallList] using h)
  | cons c cs ihl =>
    intro cf m k h
    rw [visitCallList_cons] at h
    rcases ihl (fun c' hc' => ih c' (List.mem_cons_of_mem _ hc')) cf _ k h with h1 | h1 | h1
    · rcases ih c (List.mem_cons_self _ _) cf m k h1 with h2 | h2 | h2
      · exact Or.inl h2
      · exact Or.inr (Or.inl (funcDefNamesList_sub (List.mem_cons_self _ _) h2))
      · exact Or.inr (Or.inr h2)
    · exact Or.inr (Or.inl (by simp [funcDefNamesList, h1]))
    · exact Or.inr (Or.inr h1)

theorem visitCall_keys_bound :
    ∀ n : Node, ∀ cf m k, k ∈ assocKeys (visitCall n cf m) →
      k ∈ assocKeys m ∨ k ∈ funcDefNames n ∨ cf = some k := by
  refine node_ind _ ?_
  intro n ih cf m k hk
  have hchild : ∀ j, j ∈ funcDefNamesList n.children → j ∈ funcDefNames n := by
    intro j hj
    rw [funcDefNames_eq]
    exact List.mem_append_right _ hj
  by_cases hfd : n.kind = "function_definition"
  · cases hn : n.childByFieldName "name" with
    | none =>
      rw [visitCall_eq_fndef_noname cf m hfd hn] at hk
      exact Or.inl hk
    | some nn =>
      by_cases ht : nn.text = ""
      · rw [visitCall_eq_fndef_empty cf m hfd hn ht] at hk
        exact Or.inl hk
      · rw [visitCall_eq_fndef_named cf m hfd hn ht] at hk
        have hfn : nn.text ∈ funcDefNames n := by
          rw [funcDefNames_eq]
          refine List.mem_append_left _ ?_
          simp [hfd, hn, ht]
        rcases visitCallList_keys_bound_of n.children ih _ _ k hk with h1 | h1 | h1
        · rcases mem_keys_cgInit_cases h1 with h2 | h2
          · exact Or.inl h2
          · exact Or.inr (Or.inl (h2 ▸ hfn))
        · exact Or.inr (Or.inl (hchild k h1))
        · have hkt : k = nn.text := by injection h1.symm
          exact Or.inr (Or.inl (hkt ▸ hfn))
  · rw [visitCall_eq_other cf m hfd] at hk
    rcases visitCallList_keys_bound_of n.children ih _ _ k hk with h1 | h1 | h1
    · rcases mem_keys_callStep_cases h1 with h2 | h2
      · exact Or.inl h2
      · exact Or.inr (Or.inr h2)
    · exact Or.inr (Or.inl (hchild k h1))
    · exact Or.inr (Or.inr h1)

theorem nodup_keys_cgInit {m : CallGraph} {k : String}
    (h : (assocKeys m).Nodup) : (assocKeys (cgInit m k)).Nodup := by
  rw [assocKeys_cgInit]
  by_cases hk : k ∈ assocKeys m
  · simpa [hk] using h
  · simp only [hk, if_false]
    exact nodup_append_singleton hk h

theorem nodup_keys_cgAddCall {m : CallGraph} {k v : String}
    (h : (assocKeys m).Nodup) : (assocKeys (cgAddCall m k v)).Nodup := by
  rw [assocKeys_cgAddCall]
  exact nodup_keys_cgInit h

theorem nodup_keys_recordCall {n : Node} {cf : String} {m : CallGraph}
    (h : (assocKeys m).Nodup) : (assocKeys (recordCall n cf m)).Nodup := by
  unfold recordCall
  split
  · split
    · split
      · exact nodup_keys_cgAddCall h
      · exact h
    · exact h
  · exact h

theorem nodup_keys_callStep {n : Node} {cf : Option String} {m : CallGraph}
    (h : (assocKeys m).Nodup) : (assocKeys (callStep n cf m)).Nodup := by
  unfold callStep
  split
  · split
    · split
      · exact h
      · exact nodup_keys_recordCall h
    · exact h
  · exact h

theorem visitCallList_keys_nodup_of (cs : List Node)
    (ih : ∀ c ∈ cs, ∀ cf m, (assocKeys m).Nodup → (assocKeys (visitCall c cf m)).Nodup) :
    ∀ cf m, (assocKeys m).Nodup → (assocKeys (visitCallList cs cf m)).Nodup := by
  induction cs with
  | nil => intro cf m h; simpa [visitCallList] using h
  | cons c cs ihl =>
    intro cf m h
    rw [visitCallList_cons]
    exact ihl (fun c' hc' => ih c' (List.mem_cons_of_mem _ hc')) cf _
      (ih c (List.mem_cons_self _ _) cf m h)

theorem visitCall_keys_nodup :
    ∀ n : Node, ∀ cf m, (assocKeys m).Nodup → (assocKeys (visitCall n cf m)).Nodup := by
  refine node_ind _ ?_
  intro n ih cf m hm
  by_cases hfd : n.kind = "function_definition"
  · cases hn : n.childByFieldName "name" with
    | none => rw [visitCall_eq_fndef_noname cf m hfd hn]; exact hm
    | some nn =>
      by_cases ht : nn.text = ""
      · rw [visitCall_eq_fndef_empty cf m hfd hn ht]
        exact hm
      · rw [visitCall_eq_fndef_named cf m hfd hn ht]
        exact visitCallList_keys_nodup_of n.children ih _ _ (nodup_keys_cgInit hm)
  · rw [visitCall_eq_other cf m hfd]
    exact visitCallList_keys_nodup_of n.children ih _ _ (nodup_keys_callStep hm)

theorem extract_call_relationships_keys_nodup (t : Node) :
    (assocKeys (extract_call_relationships t)).Nodup :=
  visitCall_keys_nodup t none [] (by simp [assocKeys])

/-! ### Unfolding lemmas for `visitEnt` -/

theorem visitEnt_eq_fndef {n : Node} (pc : Option String) (acc : EntAcc)
    (hk : n.kind = "function_definition") :
    visitEnt n pc acc = (acc.1 ++ [⟨getName n, pc, n.row + 1⟩], acc.2) := by
  cases n with
  | mk kind tx fs cs r =>
    simp only [Node.kind] at hk
    subst hk
    simp [visitEnt, Node.row]

theorem visitEnt_eq_class {n : Node} (pc : Option String) (acc : EntAcc)
    (hk : n.kind = "class_definition") :
    visitEnt n pc acc =
      visitEntList n.children (some (getName n))
        (acc.1, acc.2 ++ [⟨getName n, extractBases n, n.row + 1⟩]) := by
  cases n with
  | mk kind tx fs cs r =>
    simp only [Node.kind] at hk
    subst hk
    simp [visitEnt, Node.row, Node.children]

theorem visitEnt_eq_other {n : Node} (pc : Option String) (acc : EntAcc)
    (hk1 : n.kind ≠ "function_definition") (hk2 : n.kind ≠ "class_definition") :
    visitEnt n pc acc = visitEntList n.children pc acc := by
  cases n with
  | mk kind tx fs cs r =>
    simp only [Node.kind] at hk1 hk2
    simp [visitEnt, hk1, hk2, Node.children]

theorem visitEntList_nil (pc : Option String) (acc : EntAcc) :
    visitEntList [] pc acc = acc := rfl

theorem visitEntList_cons (c : Node) (cs : List Node) (pc : Option String) (acc : EntAcc) :
    visitEntList (c :: cs) pc acc = visitEntList cs pc (visitEnt c pc acc) := rfl

/-! ### Lockstep of entity extraction and call extraction (named entities
have call-graph keys) -/

theorem visitCallList_keys_subset (cs : List Node) (cf : Option String)
    (m : CallGraph) (k : String) (h : k ∈ assocKeys m) :
    k ∈ assocKeys (visitCallList cs cf m) :=
  visitCallList_keys_subset_of cs (fun c _ => visitCall_keys_subset c) cf m k h

theorem entCallList_lockstep_of (cs : List Node)
    (ih : ∀ c ∈ cs, ∀ pc cf acc m,
      (∀ fe ∈ acc.1, fe.name ≠ "unknown" → fe.name ≠ "" → fe.name ∈ assocKeys m) →
      ∀ fe ∈ (visitEnt c pc acc).1, fe.name ≠ "unknown" → fe.name ≠ "" →
        fe.name ∈ assocKeys (visitCall c cf m)) :
    ∀ pc cf acc m,
      (∀ fe ∈ acc.1, fe.name ≠ "unknown" → fe.name ≠ "" → fe.name ∈ assocKeys m) →
      ∀ fe ∈ (visitEntList cs pc acc).1, fe.name ≠ "unknown" → fe.name ≠ "" →
        fe.name ∈ assocKeys (visitCallList cs cf m) := by
  induction cs with
  | nil =>
    intro pc cf acc m hInv fe hfe h1 h2
    exact hInv fe (by simpa [visitEntList] using hfe) h1 h2
  | cons c cs ihl =>
    intro pc cf acc m hInv fe hfe h1 h2
    rw [visitEntList_cons] at hfe
    rw [visitCallList_cons]
    exact ihl (fun c' hc' => ih c' (List.mem_cons_of_mem _ hc')) pc cf _ _
      (fun fe' hfe' h1' h2' => ih c (List.mem_cons_self _ _) pc cf acc m hInv fe' hfe' h1' h2')
      fe hfe h1 h2

theorem entCall_lockstep :
    ∀ n : Node, ∀ pc cf acc m,
      (∀ fe ∈ acc.1, fe.name ≠ "unknown" → fe.name ≠ "" → fe.name ∈ assocKeys m) →
      ∀ fe ∈ (visitEnt n pc acc).1, fe.name ≠ "unknown" → fe.name ≠ "" →
        fe.name ∈ assocKeys (visitCall n cf m) := by
  refine node_ind _ ?_
  intro n ih pc cf acc m hInv fe hfe h1 h2
  by_cases hfd : n.kind = "function_definition"
  · rw [visitEnt_eq_fndef pc acc hfd] at hfe
    simp only [List.mem_append, List.mem_singleton] at hfe
    cases hn : n.childByFieldName "name" with
    | none =>
      rw [visitCall_eq_fndef_noname cf m hfd hn]
      rcases hfe with hfe | hfe
      · exact hInv fe hfe h1 h2
      · exfalso
        apply h1
        rw [hfe]
        simp [getName, hn]
    | some nn =>
      by_cases ht : nn.text = ""
      · rw [visitCall_eq_fndef_empty cf m hfd hn ht]
        rcases hfe with hfe | hfe
        · exact hInv fe hfe h1 h2
        · exfalso
          apply h2
          rw [hfe]
          simp [getName, hn, ht]
      · rw [visitCall_eq_fndef_named cf m hfd hn ht]
        rcases hfe with hfe | hfe
        · exact visitCallList_keys_subset _ _ _ _ (mem_keys_cgInit (hInv fe hfe h1 h2))
        · refine visitCallList_keys_subset _ _ _ _ ?_
          have : fe.name = nn.text := by rw [hfe]; simp [getName, hn]
          rw [this]
          exact self_mem_keys_cgInit m nn.text
  · have hcall : visitCall n cf m = visitCallList n.children cf (callStep n cf m) :=
      visitCall_eq_other cf m hfd
    by_cases hcd : n.kind = "class_definition"
    · rw [visitEnt_eq_class pc acc hcd] at hfe
      rw [hcall]
      exact entCallList_lockstep_of n.children ih (some (getName n)) cf
        (acc.1, acc.2 ++ [⟨getName n, extractBases n, n.row + 1⟩]) (callStep n cf m)
        (fun fe' hfe' h1' h2' => mem_keys_callStep (hInv fe' hfe' h1' h2')) fe hfe h1 h2
    · rw [visitEnt_eq_other pc acc hfd hcd] at hfe
      rw [hcall]
      exact entCallList_lockstep_of n.children ih _ cf _ _
        (fun fe' hfe' h1' h2' => mem_keys_callStep (hInv fe' hfe' h1' h2')) fe hfe h1 h2

/-! ### `firstOccur` and the raw call stream -/

theorem mem_firstOccurAux {x : String} :
    ∀ (l seen : List String), x ∈ firstOccurAux l seen ↔ x ∈ l ∧ x ∉ seen := by
  intro l
  induction l with
  | nil => intro seen; simp [firstOccurAux]
  | cons a l ih =>
    intro seen
    by_cases ha : a ∈ seen
    · simp only [firstOccurAux, ha, if_true, ih, List.mem_cons]
      constructor
      · rintro ⟨h1, h2⟩
        exact ⟨Or.inr h1, h2⟩
      · rintro ⟨h1 | h1, h2⟩
        · exact absurd (h1 ▸ ha) h2
        · exact ⟨h1, h2⟩
    · simp only [firstOccurAux, ha, if_false, List.mem_cons, ih]
      by_cases hx : x = a
      · subst hx
        simp [ha]
      · simp only [hx, false_or, List.mem_cons]

theorem mem_firstOccur {x : String} {l : List String} :
    x ∈ firstOccur l ↔ x ∈ l := by
  simp [firstOccur, mem_firstOccurAux]

theorem firstOccurAux_append (v : String) :
    ∀ (l seen : List String),
      firstOccurAux (l ++ [v]) seen =
        firstOccurAux l seen ++ (if v ∈ seen ∨ v ∈ l then [] else [v]) := by
  intro l
  induction l with
  | nil =>
    intro seen
    by_cases hv : v ∈ seen <;> simp [firstOccurAux, hv]
  | cons a l ih =>
    intro seen
    simp only [List.cons_append, firstOccurAux, List.append_eq]
    by_cases ha : a ∈ seen
    · simp only [ha, if_true]
      rw [ih seen]
      congr 1
      refine if_congr ?_ rfl rfl
      simp only [List.mem_cons]
      constructor
      · rintro (h | h)
        · exact Or.inl h
        · exact Or.inr (Or.inr h)
      · rintro (h | h | h)
        · exact Or.inl h
        · exact Or.inl (h ▸ ha)
        · exact Or.inr h
    · simp only [ha, if_false]
      rw [ih (a :: seen), List.cons_append]
      congr 1
      congr 1
      refine if_congr ?_ rfl rfl
      simp only [List.mem_cons]
      constructor
      · rintro ((h | h) | h)
        · exact Or.inr (Or.inl h)
        · exact Or.inl h
        · exact Or.inr (Or.inr h)
      · rintro (h | h | h)
        · exact Or.inl (Or.inr h)
        · exact Or.inl (Or.inl h)
        · exact Or.inr h

theorem firstOccur_append (l : List String) (v : String) :
    firstOccur (l ++ [v]) =
      if v ∈ l then firstOccur l else firstOccur l ++ [v] := by
  unfold firstOccur
  rw [firstOccurAux_append]
  by_cases hv : v ∈ l <;> simp [hv]

theorem nodup_firstOccurAux : ∀ (l seen : List String), (firstOccurAux l seen).Nodup := by
  intro l
  induction l with
  | nil => intro seen; simp [firstOccurAux]
  | cons a l ih =>
    intro seen
    by_cases ha : a ∈ seen
    · simpa [firstOccurAux, ha] using ih seen
    · simp only [firstOccurAux, ha, if_false, List.nodup_cons]
      refine ⟨fun hmem => ?_, ih (a :: seen)⟩
      have := (mem_firstOccurAux l (a :: seen)).mp hmem
      exact this.2 (List.mem_cons_self _ _)

theorem nodup_firstOccur (l : List String) : (firstOccur l).Nodup :=
  nodup_firstOccurAux l []

theorem assocFind_mapFO (m : CallGraph) (k : String) :
    assocFind (mapFO m) k = (assocFind m k).map firstOccur := by
  induction m with
  | nil => simp [mapFO, assocFind]
  | cons p m ih =>
    by_cases hp : p.1 = k
    · simp [mapFO, assocFind, hp]
    · simpa [mapFO, assocFind, hp] using ih

theorem cgInit_mapFO (m : CallGraph) (k : String) :
    cgInit (mapFO m) k = mapFO (cgInit m k) := by
  induction m with
  | nil => simp [mapFO, cgInit, firstOccur, firstOccurAux]
  | cons p m ih =>
    by_cases hp : p.1 = k
    · simp [mapFO, cgInit, hp]
    · simp only [mapFO, List.map_cons] at ih ⊢
      simp only [cgInit, hp, if_false, List.map_cons]
      rw [ih]

theorem cgAddCall_mapFO (m : CallGraph) (k v : String) :
    cgAddCall (mapFO m) k v = mapFO (cgAddCallRaw m k v) := by
  induction m with
  | nil => simp [mapFO, cgAddCall, cgAddCallRaw, firstOccur, firstOccurAux]
  | cons p m ih =>
    by_cases hp : p.1 = k
    · simp only [mapFO, List.map_cons, cgAddCall, cgAddCallRaw, hp, if_true]
      rw [firstOccur_append]
      by_cases hv : v ∈ p.2
      · simp [mem_firstOccur, hv]
      · simp [mem_firstOccur, hv]
    · simpa [mapFO, cgAddCall, cgAddCallRaw, hp] using ih

theorem recordCall_mapFO (n : Node) (cf : String) (m : CallGraph) :
    recordCall n cf (mapFO m) = mapFO (recordCallRaw n cf m) := by
  unfold recordCall recordCallRaw
  split
  · split
    · split
      · exact cgAddCall_mapFO m cf _
      · rfl
    · rfl
  · rfl

theorem callStep_mapFO (n : Node) (cf : Option String) (m : CallGraph) :
    callStep n cf (mapFO m) = mapFO (callStepRaw n cf m) := by
  unfold callStep callStepRaw
  by_cases hk : n.kind = "call"
  · simp only [hk, if_true]
    cases cf with
    | none => rfl
    | some c =>
      by_cases hce : c = ""
      · simp [hce]
      · simp [hce, recordCall_mapFO]
  · simp [hk]

theorem rawVisitCall_eq_fndef_named {n nn : Node} (cf : Option String) (m : CallGraph)
    (hk : n.kind = "function_definition") (hn : n.childByFieldName "name" = some nn)
    (ht : nn.text ≠ "") :
    rawVisitCall n cf m = rawVisitCallList n.children (some nn.text) (cgInit m nn.text) := by
  cases n with
  | mk kind tx fs cs r =>
    simp only [Node.kind] at hk
    subst hk
    simp [rawVisitCall, hn, ht, Node.children]

theorem rawVisitCall_eq_fndef_empty {n nn : Node} (cf : Option String) (m : CallGraph)
    (hk : n.kind = "function_definition") (hn : n.childByFieldName "name" = some nn)
    (ht : nn.text = "") : rawVisitCall n cf m = m := by
  cases n with
  | mk kind tx fs cs r =>
    simp only [Node.kind] at hk
    subst hk
    simp [rawVisitCall, hn, ht]

theorem rawVisitCall_eq_fndef_noname {n : Node} (cf : Option String) (m : CallGraph)
    (hk : n.kind = "function_definition") (hn : n.childByFieldName "name" = none) :
    rawVisitCall n cf m = m := by
  cases n with
  | mk kind tx fs cs r =>
    simp only [Node.kind] at hk
    subst hk
    simp [rawVisitCall, hn]

theorem rawVisitCall_eq_other {n : Node} (cf : Option String) (m : CallGraph)
    (hk : n.kind ≠ "function_definition") :
    rawVisitCall n cf m = rawVisitCallList n.children cf (callStepRaw n cf m) := by
  cases n with
  | mk kind tx fs cs r =>
    simp only [Node.kind] at hk
    simp [rawVisitCall, hk, Node.children]

theorem rawVisitCallList_cons (c : Node) (cs : List Node) (cf : Option String)
    (m : CallGraph) :
    rawVisitCallList (c :: cs) cf m = rawVisitCallList cs cf (rawVisitCall c cf m) := rfl

theorem visitCallList_mapFO_of (cs : List Node)
    (ih : ∀ c ∈ cs, ∀ cf m, visitCall c cf (mapFO m) = mapFO (rawVisitCall c cf m)) :
    ∀ cf m, visitCallList cs cf (mapFO m) = mapFO (rawVisitCallList cs cf m) := by
  induction cs with
  | nil => intro cf m; rfl
  | cons c cs ihl =>
    intro cf m
    rw [visitCallList_cons, rawVisitCallList_cons, ih c (List.mem_cons_self _ _)]
    exact ihl (fun c' hc' => ih c' (List.mem_cons_of_mem _ hc')) cf _

theorem visitCall_mapFO :
    ∀ n : Node, ∀ cf m, visitCall n cf (mapFO m) = mapFO (rawVisitCall n cf m) := by
  refine node_ind _ ?_
  intro n ih cf m
  by_cases hfd : n.kind = "function_definition"
  · cases hn : n.childByFieldName "name" with
    | none =>
      rw [visitCall_eq_fndef_noname cf _ hfd hn, rawVisitCall_eq_fndef_noname cf m hfd hn]
    | some nn =>
      by_cases ht : nn.text = ""
      · rw [visitCall_eq_fndef_empty cf _ hfd hn ht, rawVisitCall_eq_fndef_empty cf m hfd hn ht]
      · rw [visitCall_eq_fndef_named cf _ hfd hn ht,
            rawVisitCall_eq_fndef_named cf m hfd hn ht, cgInit_mapFO]
        exact visitCallList_mapFO_of n.children ih _ _
  · rw [visitCall_eq_other cf _ hfd, rawVisitCall_eq_other cf m hfd, callStep_mapFO]
    exact visitCallList_mapFO_of n.children ih _ _

theorem extract_eq_mapFO_raw (t : Node) :
    extract_call_relationships t = mapFO (raw_call_relationships t) := by
  unfold extract_call_relationships raw_call_relationships
  exact visitCall_mapFO t none []

/-! ### Excluded names never enter the call graph -/

theorem mem_val_cgInit {m : CallGraph} {k : String} {p : String × List String}
    (hp : p ∈ cgInit m k) {x : String} (hx : x ∈ p.2) :
    ∃ q ∈ m, x ∈ q.2 := by
  induction m with
  | nil =>
    simp only [cgInit, List.mem_singleton] at hp
    rw [hp] at hx
    cases hx
  | cons q m ih =>
    by_cases hq : q.1 = k
    · simp only [cgInit, hq, if_true] at hp
      exact ⟨p, hp, hx⟩
    · simp only [cgInit, hq, if_false, List.mem_cons] at hp
      rcases hp with hp | hp
      · exact ⟨q, List.mem_cons_self _ _, hp ▸ hx⟩
      · obtain ⟨q', hq', hx'⟩ := ih hp
        exact ⟨q', List.mem_cons_of_mem _ hq', hx'⟩

theorem mem_val_cgAddCall {m : CallGraph} {k v : String} {p : String × List String}
    (hp : p ∈ cgAddCall m k v) {x : String} (hx : x ∈ p.2) :
    (∃ q ∈ m, x ∈ q.2) ∨ x = v := by
  induction m with
  | nil =>
    simp only [cgAddCall, List.mem_singleton] at hp
    rw [hp] at hx
    simp only [List.mem_singleton] at hx
    exact Or.inr hx
  | cons q m ih =>
    by_cases hq : q.1 = k
    · simp only [cgAddCall, hq, if_true, List.mem_cons] at hp
      rcases hp with hp | hp
      · rw [hp] at hx
        by_cases hv : v ∈ q.2
        · simp only [hv, if_true] at hx
          exact Or.inl ⟨q, List.mem_cons_self _ _, hx⟩
        · simp only [hv, if_false, List.mem_append, List.mem_singleton] at hx
          rcases hx with hx | hx
          · exact Or.inl ⟨q, List.mem_cons_self _ _, hx⟩
          · exact Or.inr hx
      · exact Or.inl ⟨p, List.mem_cons_of_mem _ hp, hx⟩
    · simp only [cgAddCall, hq, if_false, List.mem_cons] at hp
      rcases hp with hp | hp
      · exact Or.inl ⟨q, List.mem_cons_self _ _, hp ▸ hx⟩
      · rcases ih hp with ⟨q', hq', hx'⟩ | hx'
        · exact Or.inl ⟨q', List.mem_cons_of_mem _ hq', hx'⟩
        · exact Or.inr hx'

theorem exclInv_cgInit {m : CallGraph} {k : String} (h : ExclInv m) :
    ExclInv (cgInit m k) := by
  intro p hp x hx
  obtain ⟨q, hq, hx'⟩ := mem_val_cgInit hp hx
  exact h q hq x hx'

theorem exclInv_recordCall {n : Node} {cf : String} {m : CallGraph} (h : ExclInv m) :
    ExclInv (recordCall n cf m) := by
  unfold recordCall
  split
  · split
    · split
      · rename_i called hcond
        intro p hp x hx
        rcases mem_val_cgAddCall hp hx with ⟨q, hq, hx'⟩ | hx'
        · exact h q hq x hx'
        · exact hx' ▸ ⟨hcond.2.1, hcond.2.2⟩
      · exact h
    · exact h
  · exact h

theorem exclInv_callStep {n : Node} {cf : Option String} {m : CallGraph} (h : ExclInv m) :
    ExclInv (callStep n cf m) := by
  unfold callStep
  split
  · split
    · split
      · exact h
      · exact exclInv_recordCall h
    · exact h
  · exact h

theorem visitCallList_exclInv_of (cs : List Node)
    (ih : ∀ c ∈ cs, ∀ cf m, ExclInv m → ExclInv (visitCall c cf m)) :
    ∀ cf m, ExclInv m → ExclInv (visitCallList cs cf m) := by
  induction cs with
  | nil => intro cf m h; simpa [visitCallList] using h
  | cons c cs ihl =>
    intro cf m h
    rw [visitCallList_cons]
    exact ihl (fun c' hc' => ih c' (List.mem_cons_of_mem _ hc')) cf _
      (ih c (List.mem_cons_self _ _) cf m h)

theorem visitCall_exclInv :
    ∀ n : Node, ∀ cf m, ExclInv m → ExclInv (visitCall n cf m) := by
  refine node_ind _ ?_
  intro n ih cf m hm
  by_cases hfd : n.kind = "function_definition"
  · cases hn : n.childByFieldName "name" with
    | none => rw [visitCall_eq_fndef_noname cf m hfd hn]; exact hm
    | some nn =>
      by_cases ht : nn.text = ""
      · rw [visitCall_eq_fndef_empty cf m hfd hn ht]
        exact hm
      · rw [visitCall_eq_fndef_named cf m hfd hn ht]
        exact visitCallList_exclInv_of n.children ih _ _ (exclInv_cgInit hm)
  · rw [visitCall_eq_other cf m hfd]
    exact visitCallList_exclInv_of n.children ih _ _ (exclInv_callStep hm)

theorem extract_call_relationships_exclInv (t : Node) :
    ExclInv (extract_call_relationships t) :=
  visitCall_exclInv t none [] (by intro p hp; cases hp)

/-! ### Lemmas about the `run_analysis` aggregation loop -/

theorem processFile_files (st : List FileData × CallGraph × Nat) (f : SrcFile) :
    (processFile st f).1 = st.1 ++ (fileRecord f).toList := by
  unfold processFile fileRecord
  split
  · split
    · rename_i t htree
      by_cases hne :
        (extract_entities_minimal t (joinPath f.dir f.filename)
          (some (joinPath f.dir f.filename))).functions ≠ [] ∨
        (extract_entities_minimal t (joinPath f.dir f.filename)
          (some (joinPath f.dir f.filename))).classes ≠ []
      · simp [hne]
      · simp [hne]
    · simp
  · simp

theorem foldl_processFile_files :
    ∀ (walk : List SrcFile) (st : List FileData × CallGraph × Nat),
      (walk.foldl processFile st).1 = st.1 ++ walk.filterMap fileRecord := by
  intro walk
  induction walk with
  | nil => intro st; simp
  | cons f ws ih =>
    intro st
    rw [List.foldl_cons, ih, processFile_files]
    cases hf : fileRecord f with
    | none => simp [List.filterMap_cons, hf]
    | some e => simp [List.filterMap_cons, hf]

theorem processFile_cg (st : List FileData × CallGraph × Nat) (f : SrcFile) (t : Node)
    (he : eligibleFile f = true) (htree : f.tree = some t) :
    (processFile st f).2.1 =
      (extract_call_relationships t).foldl (fun acc p => assocSet acc p.1 p.2) st.2.1 := by
  unfold processFile
  simp [he, htree]

theorem processFile_skip (st : List FileData × CallGraph × Nat) (f : SrcFile)
    (htree : f.tree = none) : processFile st f = st := by
  unfold processFile
  split
  · rw [htree]
  · rfl

theorem foldl_assocSet_find_not_mem :
    ∀ (calls m : CallGraph) (k : String), k ∉ assocKeys calls →
      assocFind (calls.foldl (fun acc p => assocSet acc p.1 p.2) m) k = assocFind m k := by
  intro calls
  induction calls with
  | nil => intro m k _; rfl
  | cons p ps ih =>
    intro m k h
    simp only [assocKeys, List.map_cons, List.mem_cons] at h
    push_neg at h
    rw [List.foldl_cons, ih _ k (by simpa [assocKeys] using h.2),
        assocFind_set_ne _ _ _ _ h.1]

theorem foldl_assocSet_find_mem :
    ∀ (calls m : CallGraph) (k : String), (assocKeys calls).Nodup → k ∈ assocKeys calls →
      assocFind (calls.foldl (fun acc p => assocSet acc p.1 p.2) m) k = assocFind calls k := by
  intro calls
  induction calls with
  | nil => intro m k _ h; cases h
  | cons p ps ih =>
    intro m k hnd hk
    rw [List.foldl_cons]
    have hcons : assocKeys (p :: ps) = p.1 :: assocKeys ps := rfl
    rw [hcons] at hnd
    have hnd' := List.nodup_cons.mp hnd
    by_cases hkp : k = p.1
    · subst hkp
      rw [foldl_assocSet_find_not_mem ps _ _ hnd'.1, assocFind_set_self]
      simp [assocFind]
    · have hk' : k ∈ assocKeys ps := by
        simp only [assocKeys, List.map_cons, List.mem_cons] at hk
        exact hk.resolve_left hkp
      rw [ih _ k hnd'.2 hk']
      simp [assocFind, Ne.symm hkp]

/-! ### Membership characterizations for the graph builders -/

theorem depTreeCallEdges_mem_aux (af : List (String × String)) :
    ∀ (l : CallGraph) (acc : List (String × String)) (e : String × String),
      e ∈ l.foldl
        (fun acc p =>
          match assocFind af p.1 with
          | some callerNode =>
            acc ++ p.2.filterMap (fun callee =>
              (assocFind af callee).map (fun calleeNode => (callerNode, calleeNode)))
          | none => acc) acc →
      e ∈ acc ∨ ∃ p ∈ l, ∃ callerNode, assocFind af p.1 = some callerNode ∧
        ∃ callee ∈ p.2, ∃ calleeNode, assocFind af callee = some calleeNode ∧
          e = (callerNode, calleeNode) := by
  intro l
  induction l with
  | nil => intro acc e h; exact Or.inl h
  | cons p l ih =>
    intro acc e h
    rw [List.foldl_cons] at h
    rcases ih _ e h with h1 | ⟨q, hq, rest⟩
    · cases hcf : assocFind af p.1 with
      | none =>
        rw [hcf] at h1
        exact Or.inl h1
      | some callerNode =>
        rw [hcf] at h1
        rcases List.mem_append.mp h1 with h2 | h2
        · exact Or.inl h2
        · obtain ⟨callee, hcallee, hg⟩ := List.mem_filterMap.mp h2
          obtain ⟨calleeNode, hcn, he⟩ := Option.map_eq_some'.mp hg
          exact Or.inr ⟨p, List.mem_cons_self _ _, callerNode, hcf, callee, hcallee,
            calleeNode, hcn, he.symm⟩
    · exact Or.inr ⟨q, List.mem_cons_of_mem _ hq, rest⟩

theorem mem_foldl_append {α β : Type} (h : α → List β) :
    ∀ (l : List α) (acc : List β) (e : β),
      e ∈ l.foldl (fun a x => a ++ h x) acc ↔ e ∈ acc ∨ ∃ x ∈ l, e ∈ h x := by
  intro l
  induction l with
  | nil => intro acc e; simp
  | cons x l ih =>
    intro acc e
    rw [List.foldl_cons, ih]
    constructor
    · rintro (hm | hm)
      · rcases List.mem_append.mp hm with h1 | h1
        · exact Or.inl h1
        · exact Or.inr ⟨x, List.mem_cons_self _ _, h1⟩
      · obtain ⟨y, hy, he⟩ := hm
        exact Or.inr ⟨y, List.mem_cons_of_mem _ hy, he⟩
    · rintro (hm | ⟨y, hy, he⟩)
      · exact Or.inl (List.mem_append.mpr (Or.inl hm))
      · rcases List.mem_cons.mp hy with h1 | h1
        · subst h1
          exact Or.inl (List.mem_append.mpr (Or.inr he))
        · exact Or.inr ⟨y, h1, he⟩

theorem mem_classHierEdges (fd : List FileData) (x y : String) :
    (x, y) ∈ classHierEdges fd ↔
      ∃ cls, (x, cls) ∈ allClasses fd ∧ y ∈ cls.bases ∧
        (assocFind (allClasses fd) y).isSome := by
  have hchar := mem_foldl_append
    (fun p : String × ClassEntity => p.2.bases.filterMap (fun base =>
      if (assocFind (allClasses fd) base).isSome then some (p.1, base) else none))
    (allClasses fd) [] (x, y)
  constructor
  · intro h
    rcases hchar.mp h with h0 | ⟨p, hp, hin⟩
    · cases h0
    obtain ⟨base, hbase, hg⟩ := List.mem_filterMap.mp hin
    by_cases hs : (assocFind (allClasses fd) base).isSome
    · rw [if_pos hs] at hg
      have h2 : (p.1, base) = (x, y) := Option.some.inj hg
      have hx : p.1 = x := congrArg Prod.fst h2
      have hy : base = y := congrArg Prod.snd h2
      refine ⟨p.2, ?_, hy ▸ hbase, hy ▸ hs⟩
      have hp' : (x, p.2) = p := by
        rw [← hx]
      rw [hp']
      exact hp
    · rw [if_neg hs] at hg
      cases hg
  · rintro ⟨cls, hmem, hbase, hsome⟩
    exact hchar.mpr (Or.inr ⟨(x, cls), hmem,
      List.mem_filterMap.mpr ⟨y, hbase, by rw [if_pos hsome]⟩⟩)

/-! ## Claim theorems -/

/-- C1, counterexample: in `def outer(): def inner(): pass` the call graph
gains the key `inner`, but the entity extractor records only `outer`, so
the call graph has a key that is not an extracted entity of the file. -/
theorem C1_counterexample :
    "inner" ∈ assocKeys (extract_call_relationships exTreeNested) ∧
    "inner" ∉ ((extract_entities_minimal exTreeNested "a.py" none).functions.map
      FunctionEntity.name) := by
  decide

/-- C1 (amended): every key of the call graph produced for a parsed tree is
the non-empty name of some function-definition node of that tree — but the
definition may be nested inside another function's body, in which case the
entity extractor records no `FunctionEntity` for it, so call-graph keys are
not always extracted entities. -/
theorem C1_keys_are_function_definitions (t : Node) (k : String)
    (h : k ∈ assocKeys (extract_call_relationships t)) : k ∈ funcDefNames t := by
  rcases visitCall_keys_bound t none [] k h with h1 | h1 | h1
  · simp [assocKeys] at h1
  · exact h1
  · cases h1

/-- C1, witness: the amended statement evaluated on the nested-definition
example. -/
theorem C1_witness :
    "inner" ∈ assocKeys (extract_call_relationships exTreeNested) ∧
    "inner" ∈ funcDefNames exTreeNested :=
  ⟨by decide, C1_keys_are_function_definitions exTreeNested "inner" (by decide)⟩

/-- C2, counterexample: in `def outer(): def inner(): g()` the call to `g`
inside the nested definition is recorded under `inner`, not under the
enclosing `outer` as the claim states. -/
theorem C2_counterexample :
    assocFind (extract_call_relationships exTreeNestedCall) "outer" = some [] ∧
    assocFind (extract_call_relationships exTreeNestedCall) "inner" = some ["g"] := by
  decide

/-- C2 (amended): the entity extractor records exactly one `FunctionEntity`
for a function-definition node and never recurses into its body (so nested
definitions yield no separate entity); but the call extractor processes a
named nested definition's body with `currentFunction` set to the nested
definition's own name — not the outer function's — and skips a nameless
definition's body entirely. -/
theorem C2_nested_definitions :
    (∀ (n : Node) (pc : Option String) (acc : EntAcc),
      n.kind = "function_definition" →
      visitEnt n pc acc = (acc.1 ++ [⟨getName n, pc, n.row + 1⟩], acc.2)) ∧
    (∀ (n nn : Node) (cf : Option String) (m : CallGraph),
      n.kind = "function_definition" → n.childByFieldName "name" = some nn →
      nn.text ≠ "" →
      visitCall n cf m = visitCallList n.children (some nn.text) (cgInit m nn.text)) ∧
    (∀ (n : Node) (cf : Option String) (m : CallGraph),
      n.kind = "function_definition" → n.childByFieldName "name" = none →
      visitCall n cf m = m) :=
  ⟨fun _ pc acc h => visitEnt_eq_fndef pc acc h,
   fun _ _ cf m h1 h2 h3 => visitCall_eq_fndef_named cf m h1 h2 h3,
   fun _ cf m h1 h2 => visitCall_eq_fndef_noname cf m h1 h2⟩

/-- C2, witness: the three parts of the amended statement evaluated on
concrete definition nodes. -/
theorem C2_witness :
    visitEnt (defNode "outer" [defNode "inner" [] 1] 0) none ([], []) =
      ([⟨"outer", none, 1⟩], []) ∧
    visitCall (defNode "inner" [callNode "g" 2] 1) (some "outer") [("outer", [])] =
      visitCallList [callNode "g" 2] (some "inner") (cgInit [("outer", [])] "inner") ∧
    visitCall (.mk "function_definition" "" [] [] 0) (some "outer") [] = [] :=
  ⟨(C2_nested_definitions.1 (defNode "outer" [defNode "inner" [] 1] 0) none ([], [])
      (by decide)).trans (by decide),
   (C2_nested_definitions.2.1 (defNode "inner" [callNode "g" 2] 1) (ident "inner" 1)
      (some "outer") [("outer", [])] (by decide) rfl (by decide)),
   C2_nested_definitions.2.2 (.mk "function_definition" "" [] [] 0) (some "outer") []
      (by decide) rfl⟩

/-- C3, counterexample: a name-less function definition is recorded by the
entity extractor under the sentinel name `unknown`, but the call extractor
skips it and creates no key, so the call graph does not contain a key for
every recorded function definition. -/
theorem C3_counterexample :
    (extract_entities_minimal exTreeNameless "a.py" none).functions =
      [⟨"unknown", none, 1⟩] ∧
    extract_call_relationships exTreeNameless = [] := by
  decide

/-- C3 (amended): every function entity the extractor records under a name
other than the sentinel `unknown` and other than the empty string has its
name as a key of the call graph of the same tree, mapped to a (possibly
empty) callee sequence; definitions recorded under the sentinel get no
key. -/
theorem C3_named_entities_have_keys (t : Node) (filePath : String)
    (originalPath : Option String) (fe : FunctionEntity)
    (hfe : fe ∈ (extract_entities_minimal t filePath originalPath).functions)
    (h1 : fe.name ≠ "unknown") (h2 : fe.name ≠ "") :
    ∃ callees, assocFind (extract_call_relationships t) fe.name = some callees := by
  have hInv : ∀ fe' ∈ ([] : List FunctionEntity), fe'.name ≠ "unknown" →
      fe'.name ≠ "" → fe'.name ∈ assocKeys ([] : CallGraph) := by
    intro fe' h
    cases h
  have hkey : fe.name ∈ assocKeys (extract_call_relationships t) :=
    entCall_lockstep t none none ([], []) [] hInv fe hfe h1 h2
  exact Option.isSome_iff_exists.mp ((assocFind_isSome_iff_mem_keys _ _).mpr hkey)

/-- C3, witness: the amended statement evaluated on `def f(): pass`, whose
call-graph key `f` maps to the empty sequence. -/
theorem C3_witness :
    ∃ callees, assocFind (extract_call_relationships exTreeSingle) "f" = some callees :=
  C3_named_entities_have_keys exTreeSingle "repo/single.py" none ⟨"f", none, 1⟩
    (by decide) (by decide) (by decide)

/-- C4, counterexample: a successfully parsed file whose extraction yields
no functions and no classes (here an empty module) produces no record in
`files` and is not counted in `stats.total_files` — the effects show one
file was parsed, yet `files = []` and `total_files = 0`. -/
theorem C4_counterexample :
    run_analysis "repo" none true [exFileEmpty] =
      (.ok ⟨"repo", [], [], 0, 0, 0, 0⟩, ⟨true, 1, true⟩) := by
  decide

/-- C4 (amended): on a cache miss with a working parser, the result's
`files` list holds exactly one record per walk entry that passes the loop
filters, parses successfully, and extracts at least one function or class
(in walk order), and `stats.total_files` is the length of that list;
successfully parsed files with neither functions nor classes are omitted
and not counted. -/
theorem C4_files_records (repoPath : String) (walk : List SrcFile) :
    ∃ r e, run_analysis repoPath none true walk = (.ok r, e) ∧
      r.files = walk.filterMap fileRecord ∧
      r.totalFiles = (walk.filterMap fileRecord).length := by
  refine ⟨_, _, rfl, ?_, ?_⟩
  · show (walk.foldl processFile ([], [], 0)).1 = walk.filterMap fileRecord
    rw [foldl_processFile_files]
    rfl
  · show (walk.foldl processFile ([], [], 0)).1.length = (walk.filterMap fileRecord).length
    rw [foldl_processFile_files]
    rfl

/-- C5: every callee sequence of an extracted call graph is duplicate-free,
contains no name from the built-in or Jac-keyword exclusion sets, and is
exactly the first-occurrence deduplication of the raw stream of resolved
callee names of that function; and an attribute call is resolved to the
text of its final `attribute` field, the receiver being ignored. -/
theorem C5_callee_lists (t : Node) :
    (∀ k l, assocFind (extract_call_relationships t) k = some l →
      l.Nodup ∧
      (∀ x ∈ l, x ∉ BUILTIN_FUNCTIONS ∧ x ∉ JAC_KEYWORDS) ∧
      ∃ r, assocFind (raw_call_relationships t) k = some r ∧ l = firstOccur r) ∧
    (∀ fn a : Node, fn.kind = "attribute" → fn.childByFieldName "attribute" = some a →
      resolveCallee fn = some a.text) := by
  constructor
  · intro k l hfind
    have hmap : assocFind (mapFO (raw_call_relationships t)) k = some l := by
      rw [← extract_eq_mapFO_raw]
      exact hfind
    rw [assocFind_mapFO] at hmap
    cases hr : assocFind (raw_call_relationships t) k with
    | none =>
      rw [hr] at hmap
      cases hmap
    | some r =>
      rw [hr] at hmap
      have hl : l = firstOccur r := (Option.some.inj hmap).symm
      refine ⟨hl ▸ nodup_firstOccur r, ?_, r, rfl, hl⟩
      intro x hx
      exact extract_call_relationships_exclInv t (k, l) (assocFind_mem _ _ _ hfind) x hx
  · intro fn a hk ha
    unfold resolveCallee
    rw [if_neg (by simp [hk]), if_pos hk, ha]
    rfl

/-- C5, witness: the statement evaluated on
`def f(): g(); obj.h(); g(); print()` — `g` deduplicated, `print`
excluded, `obj.h()` recorded as `h`. -/
theorem C5_witness :
    ((["g", "h"] : List String).Nodup ∧
      (∀ x ∈ (["g", "h"] : List String), x ∉ BUILTIN_FUNCTIONS ∧ x ∉ JAC_KEYWORDS) ∧
      ∃ r, assocFind (raw_call_relationships exTreeCalls) "f" = some r ∧
        ["g", "h"] = firstOccur r) ∧
    resolveCallee
      (.mk "attribute" "obj.h" [("object", ident "obj" 2), ("attribute", ident "h" 2)]
        [] 2) = some "h" :=
  ⟨(C5_callee_lists exTreeCalls).1 "f" ["g", "h"] (by decide),
   (C5_callee_lists exTreeCalls).2
      (.mk "attribute" "obj.h" [("object", ident "obj" 2), ("attribute", ident "h" 2)]
        [] 2) (ident "h" 2) (by decide) rfl⟩

/-- C6: every call edge emitted by the dependency-tree builder comes from a
`(caller, callees)` pair of the call graph and a callee that is itself a
registered defined function (both endpoints resolve through the
`all_functions` registry); a callee that resolves to no defined function
contributes no edge, and the builder is total (no error). -/
theorem C6_call_edges_only_defined (fd : List FileData) (cg : CallGraph)
    (e : String × String) (he : e ∈ depTreeCallEdges fd cg) :
    ∃ caller callees callee, (caller, callees) ∈ cg ∧ callee ∈ callees ∧
      assocFind (allFunctions fd) caller = some e.1 ∧
      assocFind (allFunctions fd) callee = some e.2 := by
  rcases depTreeCallEdges_mem_aux (allFunctions fd) cg [] e he with
    h0 | ⟨p, hp, callerNode, hcn, callee, hcallee, calleeNode, hcn', heq⟩
  · cases h0
  · refine ⟨p.1, p.2, callee, ?_, hcallee, ?_, ?_⟩
    · rwa [Prod.mk.eta]
    · rw [heq]
      exact hcn
    · rw [heq]
      exact hcn'

/-- C6, witness: the statement evaluated on the edge `f -> g` of the
dependency-tree example, where `f` also calls the undefined `x`. -/
theorem C6_witness :
    ∃ caller callees callee, (caller, callees) ∈ exCallGraphDep ∧ callee ∈ callees ∧
      assocFind (allFunctions exFileDep) caller = some ("e.py_f", "e.py_g").1 ∧
      assocFind (allFunctions exFileDep) callee = some ("e.py_f", "e.py_g").2 :=
  C6_call_edges_only_defined exFileDep exCallGraphDep ("e.py_f", "e.py_g") (by decide)

/-- C7: when a cached result exists, `run_analysis` returns it unchanged
for every root path, parser outcome and source tree, with no directory
walk, no parsed file, and no cache write. -/
theorem C7_cache_hit (repoPath : String) (parserOk : Bool) (walk : List SrcFile)
    (r : AnalysisResult) :
    run_analysis repoPath (some r) parserOk walk = (.ok r, ⟨false, 0, false⟩) := rfl

/-- C8, counterexample: a class `A(B)` shadowed by a later class also named
`A` contributes no inheritance edge even though `B` is an analyzed class,
so "edge if and only if the base is analyzed" fails over all analyzed
classes. -/
theorem C8_counterexample :
    (⟨"A", ["B"], 1⟩ : ClassEntity) ∈ analyzedClasses [exFileShadow] ∧
    "B" ∈ (analyzedClasses [exFileShadow]).map ClassEntity.name ∧
    ("A", "B") ∉ classHierEdges [exFileShadow] := by
  decide

/-- C8 (amended): for every entry of the class registry (which keeps, per
class name, the last analyzed class of that name) and every base name of
that entry, an inheritance edge to the base is emitted if and only if the
base is itself a registered class name; nothing fails when it is not.
Classes shadowed by a later same-named class contribute no edges. -/
theorem C8_hierarchy_edges (fd : List FileData) (name : String) (cls : ClassEntity)
    (base : String) (hfind : assocFind (allClasses fd) name = some cls)
    (hbase : base ∈ cls.bases) :
    (name, base) ∈ classHierEdges fd ↔ (assocFind (allClasses fd) base).isSome := by
  rw [mem_classHierEdges]
  constructor
  · rintro ⟨cls', hmem, hb, hs⟩
    exact hs
  · intro hs
    exact ⟨cls, assocFind_mem _ _ _ hfind, hbase, hs⟩

/-- C8, witness: the amended statement evaluated on `class C(B)` with `B`
analyzed in another file. -/
theorem C8_witness :
    ("C", "B") ∈ classHierEdges exFileHier ↔
      (assocFind (allClasses exFileHier) "B").isSome :=
  C8_hierarchy_edges exFileHier "C" ⟨"C", ["B"], 1⟩ "B" (by decide) (by decide)

/-- C9: on a cache miss, a failed parser initialization yields the
top-level error value with no per-file results, no walk, no parse and no
cache write; and a file whose conversion, read or parse fails is skipped
while the rest of the walk is processed exactly as if the file were
absent. -/
theorem C9_error_handling :
    (∀ (repoPath : String) (walk : List SrcFile),
      run_analysis repoPath none false walk =
        (.error "Parser initialization failed", ⟨false, 0, false⟩)) ∧
    (∀ (repoPath : String) (pre post : List SrcFile) (bad : SrcFile),
      bad.tree = none →
      run_analysis repoPath none true (pre ++ bad :: post) =
        run_analysis repoPath none true (pre ++ post)) := by
  constructor
  · intro repoPath walk
    rfl
  · intro repoPath pre post bad hbad
    have hfold : (pre ++ bad :: post).foldl processFile ([], [], 0) =
        (pre ++ post).foldl processFile ([], [], 0) := by
      rw [List.foldl_append, List.foldl_append, List.foldl_cons,
          processFile_skip _ bad hbad]
    unfold run_analysis
    rw [hfold]

/-- C9, witness: a failing file between good files is skipped, and the
parser-failure branch returns the error value. -/
theorem C9_witness :
    run_analysis "repo" none true ([exFileSingle] ++ exFileBad :: [exFileDupA]) =
      run_analysis "repo" none true ([exFileSingle] ++ [exFileDupA]) ∧
    run_analysis "repo" none false [exFileSingle] =
      (.error "Parser initialization failed", ⟨false, 0, false⟩) :=
  ⟨C9_error_handling.2 "repo" [exFileSingle] [exFileDupA] exFileBad rfl,
   C9_error_handling.1 "repo" [exFileSingle]⟩

/-- C10: when the last processed file defines a function name that earlier
files also define, the aggregated call graph maps that name to exactly the
callee list extracted from the last file — the earlier list is replaced,
not merged — and `get_callees` for that name answers from the last file
only. -/
theorem C10_duplicate_names (repoPath : String) (pre : List SrcFile) (f2 : SrcFile)
    (t2 : Node) (k : String) (he : eligibleFile f2 = true) (ht : f2.tree = some t2)
    (hk : k ∈ assocKeys (extract_call_relationships t2)) :
    ∃ r e, run_analysis repoPath none true (pre ++ [f2]) = (.ok r, e) ∧
      assocFind r.callGraph k = assocFind (extract_call_relationships t2) k ∧
      get_callees k r.callGraph =
        (assocFind (extract_call_relationships t2) k).getD [] := by
  have hfind : assocFind ((pre ++ [f2]).foldl processFile ([], [], 0)).2.1 k =
      assocFind (extract_call_relationships t2) k := by
    rw [List.foldl_append, List.foldl_cons, List.foldl_nil, processFile_cg _ f2 t2 he ht]
    exact foldl_assocSet_find_mem _ _ k (extract_call_relationships_keys_nodup t2) hk
  refine ⟨_, _, rfl, hfind, ?_⟩
  unfold get_callees
  rw [hfind]

/-- C10, witness: `a.py` defines `def f(): a()` and the later `b.py`
defines `def f(): b()`; the aggregated graph maps `f` to `b.py`'s list. -/
theorem C10_witness :
    ∃ r e, run_analysis "repo" none true ([exFileDupA] ++ [exFileDupB]) = (.ok r, e) ∧
      assocFind r.callGraph "f" = assocFind (extract_call_relationships exTreeDupB) "f" ∧
      get_callees "f" r.callGraph =
        (assocFind (extract_call_relationships exTreeDupB) "f").getD [] :=
  C10_duplicate_names "repo" [exFileDupA] exFileDupB exTreeDupB "f" (by decide)
    rfl (by decide)

end Analyzer
